import Mathlib

/-!
Verification of the puzzle search framework (puzzle_tools.py, sudoku_puzzle.py).

The embedding is shallow: Python classes become Lean structures, the two
search loops become fuel-indexed recursive functions (the fuel only bounds
the number of iterations of the `while` loop; `none` means the fuel ran out,
`some none` means the Python function returned `None`, and `some (some n)`
means it returned the node `n`).
-/

namespace PuzzleSolver

/-! ## Path-tree nodes (class PuzzleNode in puzzle_tools.py)

A PuzzleNode wraps an optional puzzle state, a list of children and an
optional parent back-reference.  `__eq__` ignores the parent. -/

inductive PuzzleNode (σ : Type) : Type where
  | mk : Option σ → List (PuzzleNode σ) → Option (PuzzleNode σ) → PuzzleNode σ

variable {σ : Type}

def PuzzleNode.puzzle : PuzzleNode σ → Option σ
  | .mk p _ _ => p

def PuzzleNode.children : PuzzleNode σ → List (PuzzleNode σ)
  | .mk _ c _ => c

def PuzzleNode.parent : PuzzleNode σ → Option (PuzzleNode σ)
  | .mk _ _ q => q

mutual

/-- Embeds `PuzzleNode.__eq__`:
`type(self) == type(other) and self.puzzle == other.puzzle and
 all([x in self.children for x in other.children]) and
 all([x in other.children for x in self.children])`.
The type test is automatic here (both arguments are PuzzleNodes over the
same state type).  `x in lst` is Python list membership, which tests
`lst[i] == x` elementwise; `allMem xs c` states that every element of `xs`
is `in` the list `c`, and `anyEq c x` is `x in c`. -/
def nodeEq [DecidableEq σ] : PuzzleNode σ → PuzzleNode σ → Bool
  | .mk p1 c1 _, .mk p2 c2 _ =>
      decide (p1 = p2) && allMem c2 c1 && allMem c1 c2
termination_by a b => sizeOf a + sizeOf b
decreasing_by all_goals (first | (simp_wf; omega) | simp_wf)

/-- `allMem xs c` = `all([x in c for x in xs])`. -/
def allMem [DecidableEq σ] : List (PuzzleNode σ) → List (PuzzleNode σ) → Bool
  | [], _ => true
  | x :: xs, c => anyEq c x && allMem xs c
termination_by xs c => sizeOf xs + sizeOf c
decreasing_by all_goals (first | (simp_wf; omega) | simp_wf)

/-- `anyEq c x` = `x in c` (Python list membership via `__eq__`). -/
def anyEq [DecidableEq σ] : List (PuzzleNode σ) → PuzzleNode σ → Bool
  | [], _ => false
  | y :: ys, x => nodeEq y x || anyEq ys x
termination_by c x => sizeOf c + sizeOf x
decreasing_by all_goals (first | (simp_wf; omega) | simp_wf)

end

/-! ## The abstract puzzle contract (class Puzzle)

The search core uses exactly four capabilities of a puzzle state:
`is_solved`, `extensions`, `fail_fast` and the canonical string `__str__`
(named `canon` here). -/

structure PuzzleOps (σ : Type) where
  is_solved : σ → Bool
  extensions : σ → List σ
  fail_fast : σ → Bool
  canon : σ → String

/-- `Reachable P s t`: `t` is reachable from `s` by a finite chain of
states each produced by an `extensions()` call on the previous one. -/
def Reachable (P : PuzzleOps σ) (s t : σ) : Prop :=
  Relation.ReflTransGen (fun a b => b ∈ P.extensions a) s t

/-! ## The search core (depth_first_solve, breadth_first_solve)

Both Python functions are a `while` loop over a work list of PuzzleNodes;
only the `.puzzle` field of those nodes is ever read, so the work list is
modelled as a `List σ`.  The `seen` set of canonical strings is modelled
as a `List String` (only `in` and `add` are used on it).

`dfsInner` / `bfsInner` embed the inner `for ext in item.puzzle.extensions()`
loop: `Sum.inl ext` models the early `return PuzzleNode(ext)`, and
`Sum.inr (seen, work)` models falling off the end of the `for` loop with the
updated `seen` set and work list. -/

/-- Inner `for` loop of `depth_first_solve`.  Note the source's third skip
condition is `ext.extensions == []`: it compares the *bound method object*
`ext.extensions` (no call parentheses) with `[]`, which is always `False`
in Python; it is embedded as the disjunct `False`. -/
def dfsInner (P : PuzzleOps σ) : List σ → List String → List σ →
    Sum σ (List String × List σ)
  | [], seen, work => Sum.inr (seen, work)
  | ext :: rest, seen, work =>
    if P.is_solved ext = true then Sum.inl ext
    else if P.fail_fast ext = true ∨ P.canon ext ∈ seen ∨ False then
      dfsInner P rest seen work
    else
      dfsInner P rest (P.canon ext :: seen) (work ++ [ext])

/-- Inner `for` loop of `breadth_first_solve`; here the third skip condition
is `ext.extensions() == []`, an actual call, embedded via `List.isEmpty`. -/
def bfsInner (P : PuzzleOps σ) : List σ → List String → List σ →
    Sum σ (List String × List σ)
  | [], seen, work => Sum.inr (seen, work)
  | ext :: rest, seen, work =>
    if P.is_solved ext = true then Sum.inl ext
    else if P.fail_fast ext = true ∨ P.canon ext ∈ seen ∨
        (P.extensions ext).isEmpty = true then
      bfsInner P rest seen work
    else
      bfsInner P rest (P.canon ext :: seen) (work ++ [ext])

/-- The `while` loop of `depth_first_solve`.  `new_puzzle.pop()` removes the
*last* element of the Python list, so the popped item is `work.getLast?`
and the remaining work list is `work.dropLast`. -/
def dfsLoop (P : PuzzleOps σ) : Nat → List String → List σ →
    Option (Option (PuzzleNode σ))
  | 0, _, _ => none
  | fuel + 1, seen, work =>
    match work.getLast? with
    | none => some none
    | some item =>
      match dfsInner P (P.extensions item) seen work.dropLast with
      | Sum.inl ext => some (some (PuzzleNode.mk (some ext) [] none))
      | Sum.inr (seen2, work2) => dfsLoop P fuel seen2 work2

/-- The `while` loop of `breadth_first_solve`.  `new_puzzle.pop(0)` removes
the *first* element of the Python list. -/
def bfsLoop (P : PuzzleOps σ) : Nat → List String → List σ →
    Option (Option (PuzzleNode σ))
  | 0, _, _ => none
  | fuel + 1, seen, work =>
    match work with
    | [] => some none
    | item :: rest =>
      match bfsInner P (P.extensions item) seen rest with
      | Sum.inl ext => some (some (PuzzleNode.mk (some ext) [] none))
      | Sum.inr (seen2, work2) => bfsLoop P fuel seen2 work2

/-- `depth_first_solve(puzzle)`: `seen = set()`, `new_puzzle = [PuzzleNode(puzzle)]`,
then the `while` loop. -/
def depth_first_solve (P : PuzzleOps σ) (fuel : Nat) (puzzle : σ) :
    Option (Option (PuzzleNode σ)) :=
  dfsLoop P fuel [] [puzzle]

/-- `breadth_first_solve(puzzle)`. -/
def breadth_first_solve (P : PuzzleOps σ) (fuel : Nat) (puzzle : σ) :
    Option (Option (PuzzleNode σ)) :=
  bfsLoop P fuel [] [puzzle]

/-! ## Instrumented loops

`dfsLoopTrace` / `bfsLoopTrace` are the same loops, additionally recording
(in order) every item popped from the work collection and expanded.  Their
second component provably coincides with `dfsLoop` / `bfsLoop`. -/

def dfsLoopTrace (P : PuzzleOps σ) : Nat → List String → List σ → List σ →
    List σ × Option (Option (PuzzleNode σ))
  | 0, _, _, popped => (popped, none)
  | fuel + 1, seen, work, popped =>
    match work.getLast? with
    | none => (popped, some none)
    | some item =>
      match dfsInner P (P.extensions item) seen work.dropLast with
      | Sum.inl ext =>
          (popped ++ [item], some (some (PuzzleNode.mk (some ext) [] none)))
      | Sum.inr (seen2, work2) =>
          dfsLoopTrace P fuel seen2 work2 (popped ++ [item])

def bfsLoopTrace (P : PuzzleOps σ) : Nat → List String → List σ → List σ →
    List σ × Option (Option (PuzzleNode σ))
  | 0, _, _, popped => (popped, none)
  | fuel + 1, seen, work, popped =>
    match work with
    | [] => (popped, some none)
    | item :: rest =>
      match bfsInner P (P.extensions item) seen rest with
      | Sum.inl ext =>
          (popped ++ [item], some (some (PuzzleNode.mk (some ext) [] none)))
      | Sum.inr (seen2, work2) =>
          bfsLoopTrace P fuel seen2 work2 (popped ++ [item])

/-! ## SudokuPuzzle (sudoku_puzzle.py) -/

structure SudokuPuzzle where
  n : Nat
  symbols : List (List String)
  symbol_set : List String

/-- Embeds `SudokuPuzzle.extensions`.  The source first tests
`if not any("*" in row for row in symbols): return []`.  Otherwise it runs
`while "*" not in symbols[r]: r += 1` — but the local variable `r` is read
before any assignment to it (the `r += 1` makes `r` local to the function),
so Python raises UnboundLocalError before producing any value; that failure
is modelled as `none`.  A normal return of the list `l` is `some l`. -/
def SudokuPuzzle.extensions (p : SudokuPuzzle) :
    Option (List SudokuPuzzle) :=
  if ¬ (p.symbols.any (fun row => decide ("*" ∈ row))) = true then
    some []
  else
    none

/-! ## Chains and closedness predicates -/

/-- `chainFrom P x l`: successive elements of `x :: l` are produced by
`extensions()` calls on the previous one. -/
def chainFrom (P : PuzzleOps σ) : σ → List σ → Prop
  | _, [] => True
  | x, y :: ys => y ∈ P.extensions x ∧ chainFrom P y ys

/-- A state is *closed* for a given seen set when each of its extensions
has been checked by a completed inner scan: it is not solved, and it was
filtered out or recorded (the last disjunct only arises in the
breadth-first filter). -/
def ClosedW (P : PuzzleOps σ) (seen : List String) (x : σ) : Prop :=
  ∀ e ∈ P.extensions x, P.is_solved e = false ∧
    (P.fail_fast e = true ∨ P.canon e ∈ seen ∨ P.extensions e = [])

/-- Invariant tying the seen set and the work list of a running search to
the initial state `s`: every work item is reachable; the initial state is
either still in the work list or fully scanned; and every seen canonical
string belongs to a reachable state that is in the work list or fully
scanned. -/
def SearchInv (P : PuzzleOps σ) (s : σ) (seen : List String)
    (work : List σ) : Prop :=
  (∀ x ∈ work, Reachable P s x) ∧
  (s ∈ work ∨ ClosedW P seen s) ∧
  (∀ c ∈ seen, ∃ y, Reachable P s y ∧ P.canon y = c ∧
    (y ∈ work ∨ ClosedW P seen y))

/-- Per-canonical-string budget of occurrences in `popped ++ work` during a
run started at `s`: a string enters the work list once via the initial node
(never recorded in `seen`) and at most once via a push (always recorded). -/
def seenBound (P : PuzzleOps σ) (s : σ) (seen : List String) (c : String) :
    Nat :=
  if c ∈ seen then (if c = P.canon s then 2 else 1)
  else (if c = P.canon s then 1 else 0)

/-! ## Concrete puzzle instances used in witnesses and counterexamples -/

/-- Chain puzzle: `0 → 1 → 2`, solved exactly at `2`. -/
def chainPuzzle : PuzzleOps Nat where
  is_solved := fun k => k == 2
  extensions := fun k => if k < 2 then [k + 1] else []
  fail_fast := fun _ => false
  canon := fun k => Nat.repr k

/-- Branch puzzle: `0` extends to `[5, 2, 7]` with only `2` solved. -/
def branchPuzzle : PuzzleOps Nat where
  is_solved := fun k => k == 2
  extensions := fun k => if k = 0 then [5, 2, 7] else []
  fail_fast := fun _ => false
  canon := fun k => Nat.repr k

/-- The extension `1` of `0` is a dead end: no extensions, not solved,
not fail-fast. -/
def deadEndPuzzle : PuzzleOps Nat where
  is_solved := fun _ => false
  extensions := fun k => if k = 0 then [1] else []
  fail_fast := fun _ => false
  canon := fun k => Nat.repr k

/-- Every state reports fail-fast, but the extension of `false` is solved. -/
def allFailPuzzle : PuzzleOps Bool where
  is_solved := fun b => b
  extensions := fun b => if b then [] else [true]
  fail_fast := fun _ => true
  canon := fun b => if b then "t" else "f"

/-- Every generated extension reports fail-fast and none is solved. -/
def allFailBarrenPuzzle : PuzzleOps Nat where
  is_solved := fun _ => false
  extensions := fun k => if k = 0 then [1] else []
  fail_fast := fun _ => true
  canon := fun k => Nat.repr k

/-- A pre-solved initial state with no extensions. -/
def presolvedPuzzle : PuzzleOps Nat where
  is_solved := fun _ => true
  extensions := fun _ => []
  fail_fast := fun _ => false
  canon := fun k => Nat.repr k

/-- Canonical-string collision: the dead end `1` and the useful state `2`
share the canonical string "X"; the only solution is `0 → 2 → 3`. -/
def collisionPuzzle : PuzzleOps Nat where
  is_solved := fun k => k == 3
  extensions := fun k => if k = 0 then [1, 2] else if k = 2 then [3] else []
  fail_fast := fun _ => false
  canon := fun k => if k = 3 then "z" else if k = 0 then "s" else "X"

/-- Infinite graph: `0` extends to `[1, 3]`, the solution is `0 → 1 → 2`,
and from `3` an infinite chain `3 → 4 → 5 → ...` starts.  Depth-first
search dives into the infinite chain and never returns. -/
def divergePuzzle : PuzzleOps Nat where
  is_solved := fun k => k == 2
  extensions := fun k =>
    if k = 0 then [1, 3] else if k = 1 then [2]
    else if k = 2 then [] else [k + 1]
  fail_fast := fun _ => false
  canon := fun k => String.mk (List.replicate k 'a')

/-- The seen set of the diverging depth-first run on `divergePuzzle` after
the iteration that popped `k` (for `k ≥ 3`). -/
def divergeSeen (k : Nat) : List String :=
  (List.range' 3 (k - 2)).reverse.map divergePuzzle.canon ++
    [divergePuzzle.canon 1]

/-- A two-state cycle `0 → 1 → 0` with no solution. -/
def cyclePuzzle : PuzzleOps Nat where
  is_solved := fun _ => false
  extensions := fun k => if k = 0 then [1] else if k = 1 then [0] else []
  fail_fast := fun _ => false
  canon := fun k => Nat.repr k

/-- Two inequivalent child nodes used for the node-equality witness. -/
def nodeA : PuzzleNode Nat := PuzzleNode.mk (some 1) [] none

def nodeB : PuzzleNode Nat := PuzzleNode.mk (some 2) [] none

/-- A 2x2 sudoku grid with an empty cell. -/
def sudokuWithHole : SudokuPuzzle :=
  { n := 2, symbols := [["A", "*"], ["B", "A"]], symbol_set := ["A", "B"] }

/-- A completely filled 2x2 sudoku grid. -/
def sudokuFull : SudokuPuzzle :=
  { n := 2, symbols := [["A", "B"], ["B", "A"]], symbol_set := ["A", "B"] }

/-! ## Lemmas about PuzzleNode equality -/

lemma anyEq_eq_true_iff [DecidableEq σ] (c : List (PuzzleNode σ))
    (x : PuzzleNode σ) :
    anyEq c x = true ↔ ∃ y ∈ c, nodeEq y x = true := by
  induction c with
  | nil => simp [anyEq]
  | cons y ys ih => simp [anyEq, ih, Bool.or_eq_true]

lemma allMem_eq_true_iff [DecidableEq σ] (xs c : List (PuzzleNode σ)) :
    allMem xs c = true ↔ ∀ x ∈ xs, anyEq c x = true := by
  induction xs with
  | nil => simp [allMem]
  | cons x xs ih => simp [allMem, ih, Bool.and_eq_true]

lemma nodeEq_mk_iff [DecidableEq σ] (p1 p2 : Option σ)
    (c1 c2 : List (PuzzleNode σ)) (q1 q2 : Option (PuzzleNode σ)) :
    nodeEq (.mk p1 c1 q1) (.mk p2 c2 q2) = true ↔
      p1 = p2 ∧ (∀ x ∈ c2, ∃ y ∈ c1, nodeEq y x = true) ∧
        (∀ x ∈ c1, ∃ y ∈ c2, nodeEq y x = true) := by
  rw [nodeEq]
  simp [Bool.and_eq_true, allMem_eq_true_iff, anyEq_eq_true_iff,
    decide_eq_true_iff, and_assoc]

lemma nodeEq_refl [DecidableEq σ] (n : PuzzleNode σ) : nodeEq n n = true := by
  have H : ∀ k, ∀ n : PuzzleNode σ, sizeOf n ≤ k → nodeEq n n = true := by
    intro k
    induction k with
    | zero =>
      intro n h
      cases n with
      | mk p c q => simp [PuzzleNode.mk.sizeOf_spec] at h
    | succ k ih =>
      intro n h
      cases n with
      | mk p c q =>
        rw [nodeEq_mk_iff]
        have hx : ∀ x ∈ c, nodeEq x x = true := by
          intro x hx
          have hlt : sizeOf x < sizeOf c := List.sizeOf_lt_of_mem hx
          have hc : sizeOf (PuzzleNode.mk p c q) =
              1 + sizeOf p + sizeOf c + sizeOf q := by
            simp [PuzzleNode.mk.sizeOf_spec]
          exact ih x (by omega)
        exact ⟨rfl, fun x hmem => ⟨x, hmem, hx x hmem⟩,
          fun x hmem => ⟨x, hmem, hx x hmem⟩⟩
  exact H (sizeOf n) n le_rfl

/-! ## List helpers -/

lemma mem_of_getLast_opt {α : Type} {l : List α} {a : α}
    (h : l.getLast? = some a) : a ∈ l := by
  induction l with
  | nil => simp at h
  | cons x t ih =>
    cases t with
    | nil => simp [List.getLast?] at h; simp [h]
    | cons y u =>
      rw [List.getLast?_cons_cons] at h
      exact List.mem_cons_of_mem x (ih h)

lemma getLast_opt_decomp {α : Type} {l : List α} {a : α}
    (h : l.getLast? = some a) : l = l.dropLast ++ [a] := by
  induction l with
  | nil => simp at h
  | cons x t ih =>
    cases t with
    | nil => simp [List.getLast?] at h; simp [h]
    | cons y u =>
      rw [List.getLast?_cons_cons] at h
      have := ih h
      calc x :: y :: u = x :: ((y :: u).dropLast ++ [a]) := by rw [← this]
        _ = (x :: y :: u).dropLast ++ [a] := by simp [List.dropLast]

/-! ## Inner-loop lemmas -/

/-- If the inner depth-first `for` loop returns via `return PuzzleNode(ext)`,
the returned state is the first solved extension in list order. -/
lemma dfsInner_inl {P : PuzzleOps σ} (exts : List σ) :
    ∀ seen work z, dfsInner P exts seen work = Sum.inl z →
      ∃ pre post, exts = pre ++ z :: post ∧
        (∀ e ∈ pre, P.is_solved e = false) ∧ P.is_solved z = true := by
  induction exts with
  | nil => intro seen work z h; simp [dfsInner] at h
  | cons ext rest ih =>
    intro seen work z h
    simp only [dfsInner] at h
    split at h
    · next hs =>
      cases h
      exact ⟨[], rest, rfl, by simp, hs⟩
    · next hs =>
      have hsf : P.is_solved ext = false := by simpa using hs
      split at h
      · obtain ⟨pre, post, heq, hpre, hz⟩ := ih _ _ _ h
        refine ⟨ext :: pre, post, by simp [heq], ?_, hz⟩
        intro e he
        rcases List.mem_cons.mp he with rfl | he
        · exact hsf
        · exact hpre e he
      · obtain ⟨pre, post, heq, hpre, hz⟩ := ih _ _ _ h
        refine ⟨ext :: pre, post, by simp [heq], ?_, hz⟩
        intro e he
        rcases List.mem_cons.mp he with rfl | he
        · exact hsf
        · exact hpre e he

lemma bfsInner_inl {P : PuzzleOps σ} (exts : List σ) :
    ∀ seen work z, bfsInner P exts seen work = Sum.inl z →
      ∃ pre post, exts = pre ++ z :: post ∧
        (∀ e ∈ pre, P.is_solved e = false) ∧ P.is_solved z = true := by
  induction exts with
  | nil => intro seen work z h; simp [bfsInner] at h
  | cons ext rest ih =>
    intro seen work z h
    simp only [bfsInner] at h
    split at h
    · next hs =>
      cases h
      exact ⟨[], rest, rfl, by simp, hs⟩
    · next hs =>
      have hsf : P.is_solved ext = false := by simpa using hs
      split at h
      · obtain ⟨pre, post, heq, hpre, hz⟩ := ih _ _ _ h
        refine ⟨ext :: pre, post, by simp [heq], ?_, hz⟩
        intro e he
        rcases List.mem_cons.mp he with rfl | he
        · exact hsf
        · exact hpre e he
      · obtain ⟨pre, post, heq, hpre, hz⟩ := ih _ _ _ h
        refine ⟨ext :: pre, post, by simp [heq], ?_, hz⟩
        intro e he
        rcases List.mem_cons.mp he with rfl | he
        · exact hsf
        · exact hpre e he

/-- Every element of the work list after a non-returning inner scan was
either already there or is one of the scanned extensions. -/
lemma dfsInner_inr_mem {P : PuzzleOps σ} (exts : List σ) :
    ∀ seen work seen2 work2,
      dfsInner P exts seen work = Sum.inr (seen2, work2) →
      ∀ y ∈ work2, y ∈ work ∨ y ∈ exts := by
  induction exts with
  | nil =>
    intro seen work seen2 work2 h y hy
    simp only [dfsInner] at h
    cases h
    exact Or.inl hy
  | cons ext rest ih =>
    intro seen work seen2 work2 h y hy
    simp only [dfsInner] at h
    split at h
    · cases h
    · split at h
      · rcases ih _ _ _ _ h y hy with hw | he
        · exact Or.inl hw
        · exact Or.inr (List.mem_cons_of_mem ext he)
      · rcases ih _ _ _ _ h y hy with hw | he
        · rcases List.mem_append.mp hw with hw | hw
          · exact Or.inl hw
          · simp at hw
            exact Or.inr (by simp [hw])
        · exact Or.inr (List.mem_cons_of_mem ext he)

lemma bfsInner_inr_mem {P : PuzzleOps σ} (exts : List σ) :
    ∀ seen work seen2 work2,
      bfsInner P exts seen work = Sum.inr (seen2, work2) →
      ∀ y ∈ work2, y ∈ work ∨ y ∈ exts := by
  induction exts with
  | nil =>
    intro seen work seen2 work2 h y hy
    simp only [bfsInner] at h
    cases h
    exact Or.inl hy
  | cons ext rest ih =>
    intro seen work seen2 work2 h y hy
    simp only [bfsInner] at h
    split at h
    · cases h
    · split at h
      · rcases ih _ _ _ _ h y hy with hw | he
        · exact Or.inl hw
        · exact Or.inr (List.mem_cons_of_mem ext he)
      · rcases ih _ _ _ _ h y hy with hw | he
        · rcases List.mem_append.mp hw with hw | hw
          · exact Or.inl hw
          · simp at hw
            exact Or.inr (by simp [hw])
        · exact Or.inr (List.mem_cons_of_mem ext he)

/-! ## Loop lemmas -/

lemma Reachable.refl (P : PuzzleOps σ) (s : σ) : Reachable P s s :=
  Relation.ReflTransGen.refl

lemma Reachable.step {P : PuzzleOps σ} {s a b : σ} (h : Reachable P s a)
    (hb : b ∈ P.extensions a) : Reachable P s b :=
  Relation.ReflTransGen.tail h hb

lemma dfsLoop_nil (P : PuzzleOps σ) (fuel : Nat) (seen : List String) :
    dfsLoop P (fuel + 1) seen [] = some none := by
  simp [dfsLoop]

lemma bfsLoop_nil (P : PuzzleOps σ) (fuel : Nat) (seen : List String) :
    bfsLoop P (fuel + 1) seen [] = some none := by
  simp [bfsLoop]

/-- One-step unfolding of the depth-first `while` loop when the work list
is non-empty. -/
lemma dfsLoop_succ (P : PuzzleOps σ) (fuel : Nat) (seen : List String)
    (work : List σ) (item : σ) (hlast : work.getLast? = some item) :
    dfsLoop P (fuel + 1) seen work =
      match dfsInner P (P.extensions item) seen work.dropLast with
      | Sum.inl ext => some (some (PuzzleNode.mk (some ext) [] none))
      | Sum.inr (seen2, work2) => dfsLoop P fuel seen2 work2 := by
  simp only [dfsLoop, hlast]

lemma bfsLoop_succ (P : PuzzleOps σ) (fuel : Nat) (seen : List String)
    (item : σ) (rest : List σ) :
    bfsLoop P (fuel + 1) seen (item :: rest) =
      match bfsInner P (P.extensions item) seen rest with
      | Sum.inl ext => some (some (PuzzleNode.mk (some ext) [] none))
      | Sum.inr (seen2, work2) => bfsLoop P fuel seen2 work2 := by
  simp only [bfsLoop]

/-- Soundness invariant for the depth-first loop: a returned node wraps
the first solved extension of some state reachable from `s`. -/
lemma dfsLoop_sound {P : PuzzleOps σ} {s : σ} :
    ∀ fuel seen work n, (∀ x ∈ work, Reachable P s x) →
      dfsLoop P fuel seen work = some (some n) →
      ∃ item pre z post, Reachable P s item ∧
        P.extensions item = pre ++ z :: post ∧
        (∀ e ∈ pre, P.is_solved e = false) ∧ P.is_solved z = true ∧
        n = PuzzleNode.mk (some z) [] none := by
  intro fuel
  induction fuel with
  | zero => intro seen work n _ heq; simp [dfsLoop] at heq
  | succ fuel ih =>
    intro seen work n hreach heq
    cases hlast : work.getLast? with
    | none =>
      rw [dfsLoop, hlast] at heq
      simp at heq
    | some item =>
      rw [dfsLoop_succ P fuel seen work item hlast] at heq
      have hitem : Reachable P s item := hreach item (mem_of_getLast_opt hlast)
      cases hscan : dfsInner P (P.extensions item) seen work.dropLast with
      | inl z =>
        rw [hscan] at heq
        obtain ⟨pre, post, hdec, hpre, hz⟩ := dfsInner_inl _ _ _ _ hscan
        simp only [Option.some.injEq] at heq
        exact ⟨item, pre, z, post, hitem, hdec, hpre, hz, heq.symm⟩
      | inr res =>
        obtain ⟨seen2, work2⟩ := res
        rw [hscan] at heq
        refine ih seen2 work2 n ?_ heq
        intro y hy
        rcases dfsInner_inr_mem _ _ _ _ _ hscan y hy with hw | he
        · refine hreach y ?_
          rw [getLast_opt_decomp hlast]
          exact List.mem_append.mpr (Or.inl hw)
        · exact Reachable.step hitem he

lemma bfsLoop_sound {P : PuzzleOps σ} {s : σ} :
    ∀ fuel seen work n, (∀ x ∈ work, Reachable P s x) →
      bfsLoop P fuel seen work = some (some n) →
      ∃ item pre z post, Reachable P s item ∧
        P.extensions item = pre ++ z :: post ∧
        (∀ e ∈ pre, P.is_solved e = false) ∧ P.is_solved z = true ∧
        n = PuzzleNode.mk (some z) [] none := by
  intro fuel
  induction fuel with
  | zero => intro seen work n _ heq; simp [bfsLoop] at heq
  | succ fuel ih =>
    intro seen work n hreach heq
    cases work with
    | nil =>
      rw [bfsLoop] at heq
      simp at heq
    | cons item rest =>
      rw [bfsLoop_succ] at heq
      have hitem : Reachable P s item := hreach item (List.mem_cons_self _ _)
      cases hscan : bfsInner P (P.extensions item) seen rest with
      | inl z =>
        rw [hscan] at heq
        obtain ⟨pre, post, hdec, hpre, hz⟩ := bfsInner_inl _ _ _ _ hscan
        simp only [Option.some.injEq] at heq
        exact ⟨item, pre, z, post, hitem, hdec, hpre, hz, heq.symm⟩
      | inr res =>
        obtain ⟨seen2, work2⟩ := res
        rw [hscan] at heq
        refine ih seen2 work2 n ?_ heq
        intro y hy
        rcases bfsInner_inr_mem _ _ _ _ _ hscan y hy with hw | he
        · exact hreach y (List.mem_cons_of_mem item hw)
        · exact Reachable.step hitem he

/-- Fuel monotonicity: once the depth-first loop produces an answer, any
larger fuel produces the same answer. -/
lemma dfsLoop_mono {P : PuzzleOps σ} :
    ∀ fuel fuel2 seen work r, dfsLoop P fuel seen work = some r →
      fuel ≤ fuel2 → dfsLoop P fuel2 seen work = some r := by
  intro fuel
  induction fuel with
  | zero => intro fuel2 seen work r h; simp [dfsLoop] at h
  | succ fuel ih =>
    intro fuel2 seen work r h hle
    cases fuel2 with
    | zero => omega
    | succ fuel2 =>
      cases hlast : work.getLast? with
      | none =>
        rw [dfsLoop, hlast] at h ⊢
        exact h
      | some item =>
        rw [dfsLoop_succ P fuel seen work item hlast] at h
        rw [dfsLoop_succ P fuel2 seen work item hlast]
        cases hscan : dfsInner P (P.extensions item) seen work.dropLast with
        | inl z => rw [hscan] at h; exact h
        | inr res =>
          obtain ⟨seen2, work2⟩ := res
          rw [hscan] at h
          exact ih fuel2 seen2 work2 r h (by omega)

lemma bfsLoop_mono {P : PuzzleOps σ} :
    ∀ fuel fuel2 seen work r, bfsLoop P fuel seen work = some r →
      fuel ≤ fuel2 → bfsLoop P fuel2 seen work = some r := by
  intro fuel
  induction fuel with
  | zero => intro fuel2 seen work r h; simp [bfsLoop] at h
  | succ fuel ih =>
    intro fuel2 seen work r h hle
    cases fuel2 with
    | zero => omega
    | succ fuel2 =>
      cases work with
      | nil =>
        rw [bfsLoop] at h ⊢
        exact h
      | cons item rest =>
        rw [bfsLoop_succ] at h
        rw [bfsLoop_succ]
        cases hscan : bfsInner P (P.extensions item) seen rest with
        | inl z => rw [hscan] at h; exact h
        | inr res =>
          obtain ⟨seen2, work2⟩ := res
          rw [hscan] at h
          exact ih fuel2 seen2 work2 r h (by omega)

/-- If every scanned extension is unsolved and fail-fast, the inner scan
changes nothing. -/
lemma dfsInner_all_skip {P : PuzzleOps σ} (exts : List σ)
    (h : ∀ e ∈ exts, P.is_solved e = false ∧ P.fail_fast e = true) :
    ∀ seen work, dfsInner P exts seen work = Sum.inr (seen, work) := by
  induction exts with
  | nil => intro seen work; rfl
  | cons e rest ih =>
    intro seen work
    obtain ⟨h1, h2⟩ := h e (List.mem_cons_self e rest)
    simp only [dfsInner]
    rw [if_neg (by simp [h1]), if_pos (Or.inl h2)]
    exact ih (fun x hx => h x (List.mem_cons_of_mem e hx)) seen work

lemma bfsInner_all_skip {P : PuzzleOps σ} (exts : List σ)
    (h : ∀ e ∈ exts, P.is_solved e = false ∧ P.fail_fast e = true) :
    ∀ seen work, bfsInner P exts seen work = Sum.inr (seen, work) := by
  induction exts with
  | nil => intro seen work; rfl
  | cons e rest ih =>
    intro seen work
    obtain ⟨h1, h2⟩ := h e (List.mem_cons_self e rest)
    simp only [bfsInner]
    rw [if_neg (by simp [h1]), if_pos (Or.inl h2)]
    exact ih (fun x hx => h x (List.mem_cons_of_mem e hx)) seen work

/-! ## Claims C1, C8, C4, C7, C3 -/

/-- C1: soundness of both entry points.  If `depth_first_solve(s)` or
`breadth_first_solve(s)` returns a node `n`, then `n.puzzle.is_solved()`
is true and `n.puzzle` is reachable from `s` by a finite chain of states
each produced by an `extensions()` call on the previous one. -/
theorem C1_soundness (P : PuzzleOps σ) (s : σ) (fuel : Nat)
    (n : PuzzleNode σ)
    (h : depth_first_solve P fuel s = some (some n) ∨
         breadth_first_solve P fuel s = some (some n)) :
    ∃ z, n.puzzle = some z ∧ P.is_solved z = true ∧ Reachable P s z := by
  have hw : ∀ x ∈ ([s] : List σ), Reachable P s x := by
    intro x hx
    rw [List.mem_singleton.mp hx]
    exact Reachable.refl P s
  rcases h with h | h
  · obtain ⟨item, pre, z, post, hitem, hdec, hpre, hz, hn⟩ :=
      dfsLoop_sound fuel [] [s] n hw h
    refine ⟨z, ?_, hz, Reachable.step hitem ?_⟩
    · rw [hn]; rfl
    · rw [hdec]; simp
  · obtain ⟨item, pre, z, post, hitem, hdec, hpre, hz, hn⟩ :=
      bfsLoop_sound fuel [] [s] n hw h
    refine ⟨z, ?_, hz, Reachable.step hitem ?_⟩
    · rw [hn]; rfl
    · rw [hdec]; simp

/-- Witness for C1 on the concrete chain puzzle `0 → 1 → 2`. -/
theorem C1_soundness_witness :
    ∃ z, (PuzzleNode.mk (some 2) ([] : List (PuzzleNode Nat)) none).puzzle
        = some z ∧ chainPuzzle.is_solved z = true ∧
        Reachable chainPuzzle 0 z :=
  C1_soundness chainPuzzle 0 3 (PuzzleNode.mk (some 2) [] none)
    (Or.inl (by rfl))

/-- C8: on success, both entry points return a freshly built node (empty
children, absent parent) wrapping the first solved extension, in
`extensions()` order, of the state being expanded; the loop returns at
that point without scanning the remaining siblings. -/
theorem C8_first_solved_extension (P : PuzzleOps σ) (s : σ) (fuel : Nat)
    (n : PuzzleNode σ)
    (h : depth_first_solve P fuel s = some (some n) ∨
         breadth_first_solve P fuel s = some (some n)) :
    ∃ item z pre post, Reachable P s item ∧
      P.extensions item = pre ++ z :: post ∧
      (∀ e ∈ pre, P.is_solved e = false) ∧ P.is_solved z = true ∧
      n = PuzzleNode.mk (some z) [] none := by
  have hw : ∀ x ∈ ([s] : List σ), Reachable P s x := by
    intro x hx
    rw [List.mem_singleton.mp hx]
    exact Reachable.refl P s
  rcases h with h | h
  · obtain ⟨item, pre, z, post, hitem, hdec, hpre, hz, hn⟩ :=
      dfsLoop_sound fuel [] [s] n hw h
    exact ⟨item, z, pre, post, hitem, hdec, hpre, hz, hn⟩
  · obtain ⟨item, pre, z, post, hitem, hdec, hpre, hz, hn⟩ :=
      bfsLoop_sound fuel [] [s] n hw h
    exact ⟨item, z, pre, post, hitem, hdec, hpre, hz, hn⟩

/-- Witness for C8 on the branch puzzle (`0` extends to `[5, 2, 7]`): the
returned node wraps `2`, the first solved extension, with `5` before it
unsolved. -/
theorem C8_first_solved_extension_witness :
    ∃ item z pre post, Reachable branchPuzzle 0 item ∧
      branchPuzzle.extensions item = pre ++ z :: post ∧
      (∀ e ∈ pre, branchPuzzle.is_solved e = false) ∧
      branchPuzzle.is_solved z = true ∧
      PuzzleNode.mk (some 2) ([] : List (PuzzleNode Nat)) none =
        PuzzleNode.mk (some z) [] none :=
  C8_first_solved_extension branchPuzzle 0 1
    (PuzzleNode.mk (some 2) [] none) (Or.inl (by rfl))

/-- C4: the initial state is never tested by `is_solved()`; when its
`extensions()` is empty both entry points return `None` even though the
initial state itself is solved. -/
theorem C4_presolved_start_not_detected (P : PuzzleOps σ) (s : σ)
    (h1 : P.extensions s = []) (h2 : P.is_solved s = true) :
    ∀ fuel, depth_first_solve P (fuel + 2) s = some none ∧
      breadth_first_solve P (fuel + 2) s = some none := by
  intro fuel
  constructor
  · show dfsLoop P (fuel + 1 + 1) [] [s] = some none
    rw [dfsLoop_succ P (fuel + 1) [] [s] s rfl]
    have hscan : dfsInner P (P.extensions s) [] (List.dropLast [s]) =
        Sum.inr ([], []) := by rw [h1]; rfl
    rw [hscan]
    exact dfsLoop_nil P fuel []
  · show bfsLoop P (fuel + 1 + 1) [] [s] = some none
    rw [bfsLoop_succ]
    have hscan : bfsInner P (P.extensions s) [] [] = Sum.inr ([], []) := by
      rw [h1]; rfl
    rw [hscan]
    exact bfsLoop_nil P fuel []

/-- Witness for C4: a pre-solved state with no extensions yields `None`
from both entry points. -/
theorem C4_presolved_start_not_detected_witness :
    presolvedPuzzle.extensions 0 = [] ∧ presolvedPuzzle.is_solved 0 = true ∧
    depth_first_solve presolvedPuzzle 2 0 = some none ∧
    breadth_first_solve presolvedPuzzle 2 0 = some none :=
  ⟨rfl, rfl, (C4_presolved_start_not_detected presolvedPuzzle 0 rfl rfl 0).1,
    (C4_presolved_start_not_detected presolvedPuzzle 0 rfl rfl 0).2⟩

/-- C7 counterexample: `allFailPuzzle` has every generated extension
fail-fast and a non-empty initial extension list, yet both entry points
return a solution node (the solved-check precedes the fail-fast check),
and neither ever returns the absent result. -/
theorem C7_counterexample :
    (∀ a e, e ∈ allFailPuzzle.extensions a →
      allFailPuzzle.fail_fast e = true) ∧
    allFailPuzzle.extensions false ≠ [] ∧
    depth_first_solve allFailPuzzle 1 false =
      some (some (PuzzleNode.mk (some true) [] none)) ∧
    breadth_first_solve allFailPuzzle 1 false =
      some (some (PuzzleNode.mk (some true) [] none)) ∧
    (∀ fuel, depth_first_solve allFailPuzzle fuel false ≠ some none) ∧
    (∀ fuel, breadth_first_solve allFailPuzzle fuel false ≠ some none) := by
  refine ⟨fun a e he => rfl, by simp [allFailPuzzle], rfl, rfl, ?_, ?_⟩
  · intro fuel h
    rcases Nat.le_total fuel 1 with hle | hle
    · have h1 : dfsLoop allFailPuzzle 1 [] [false] = some none :=
        dfsLoop_mono fuel 1 [] [false] none h hle
      have h2 : dfsLoop allFailPuzzle 1 [] [false] =
          some (some (PuzzleNode.mk (some true) [] none)) := rfl
      rw [h1] at h2
      exact Option.noConfusion (Option.some.inj h2)
    · have h1 : dfsLoop allFailPuzzle fuel [] [false] =
          some (some (PuzzleNode.mk (some true) [] none)) :=
        dfsLoop_mono 1 fuel [] [false] _ rfl hle
      have h2 : dfsLoop allFailPuzzle fuel [] [false] = some none := h
      rw [h2] at h1
      exact Option.noConfusion (Option.some.inj h1)
  · intro fuel h
    rcases Nat.le_total fuel 1 with hle | hle
    · have h1 : bfsLoop allFailPuzzle 1 [] [false] = some none :=
        bfsLoop_mono fuel 1 [] [false] none h hle
      have h2 : bfsLoop allFailPuzzle 1 [] [false] =
          some (some (PuzzleNode.mk (some true) [] none)) := rfl
      rw [h1] at h2
      exact Option.noConfusion (Option.some.inj h2)
    · have h1 : bfsLoop allFailPuzzle fuel [] [false] =
          some (some (PuzzleNode.mk (some true) [] none)) :=
        bfsLoop_mono 1 fuel [] [false] _ rfl hle
      have h2 : bfsLoop allFailPuzzle fuel [] [false] = some none := h
      rw [h2] at h1
      exact Option.noConfusion (Option.some.inj h1)

/-- C7 (amended): if every generated extension reports fail-fast *and none
of them is solved*, both entry points return the absent result `None` (and
not an exception: the embedding is total), even though `extensions()` of
the initial state is non-empty. -/
theorem C7_all_fail_fast_returns_none (P : PuzzleOps σ) (s : σ)
    (hff : ∀ a e, e ∈ P.extensions a → P.fail_fast e = true)
    (hns : ∀ a e, e ∈ P.extensions a → P.is_solved e = false)
    (hne : P.extensions s ≠ []) :
    ∀ fuel, depth_first_solve P (fuel + 2) s = some none ∧
      breadth_first_solve P (fuel + 2) s = some none := by
  intro fuel
  have hs : ∀ e ∈ P.extensions s,
      P.is_solved e = false ∧ P.fail_fast e = true :=
    fun e he => ⟨hns s e he, hff s e he⟩
  constructor
  · show dfsLoop P (fuel + 1 + 1) [] [s] = some none
    rw [dfsLoop_succ P (fuel + 1) [] [s] s rfl]
    rw [dfsInner_all_skip (P.extensions s) hs [] (List.dropLast [s])]
    exact dfsLoop_nil P fuel []
  · show bfsLoop P (fuel + 1 + 1) [] [s] = some none
    rw [bfsLoop_succ]
    rw [bfsInner_all_skip (P.extensions s) hs [] []]
    exact bfsLoop_nil P fuel []

/-- Witness for the amended C7. -/
theorem C7_all_fail_fast_returns_none_witness :
    depth_first_solve allFailBarrenPuzzle 2 0 = some none ∧
    breadth_first_solve allFailBarrenPuzzle 2 0 = some none :=
  C7_all_fail_fast_returns_none allFailBarrenPuzzle 0
    (fun a e h => rfl) (fun a e h => rfl)
    (by simp [allFailBarrenPuzzle]) 0

/-- C3 exhibit: the two inner filters disagree on a dead-end extension.
State `1` of `deadEndPuzzle` is not solved, not fail-fast, and has no
extensions of its own; scanning it from the empty seen set, the
depth-first filter (whose third condition `ext.extensions == []` compares
a bound method with `[]` and is always false) *enqueues* it and records
its canonical string, while the breadth-first filter (with the intended
call `ext.extensions() == []`) *skips* it. -/
theorem C3_filter_divergence :
    deadEndPuzzle.is_solved 1 = false ∧
    deadEndPuzzle.fail_fast 1 = false ∧
    deadEndPuzzle.extensions 1 = [] ∧
    dfsInner deadEndPuzzle [1] [] [] = Sum.inr (["1"], [1]) ∧
    bfsInner deadEndPuzzle [1] [] [] = Sum.inr ([], []) :=
  ⟨rfl, rfl, rfl, rfl, rfl⟩

/-! ## Claims C9 and C10 -/

/-- C9: PuzzleNode equality is order- and duplicate-independent on
children and requires equal wrapped states (the `type(self) == type(other)`
test is automatic in the embedding, both sides being PuzzleNodes over the
same state type): `PuzzleNode(s, [a, b])` equals `PuzzleNode(s, [b, a])`;
it does not equal `PuzzleNode(s, [a])` when `b` is not equal to `a`; and
in general two nodes are equal iff their wrapped states are equal and each
node's children all appear among the other's children by node equality. -/
theorem C9_node_equality [DecidableEq σ] (s : σ) (a b : PuzzleNode σ)
    (hab : nodeEq a b = false) :
    nodeEq (PuzzleNode.mk (some s) [a, b] none)
        (PuzzleNode.mk (some s) [b, a] none) = true ∧
    nodeEq (PuzzleNode.mk (some s) [a, b] none)
        (PuzzleNode.mk (some s) [a] none) = false ∧
    (∀ (p1 p2 : Option σ) (c1 c2 : List (PuzzleNode σ))
        (q1 q2 : Option (PuzzleNode σ)),
      nodeEq (PuzzleNode.mk p1 c1 q1) (PuzzleNode.mk p2 c2 q2) = true ↔
        p1 = p2 ∧ (∀ x ∈ c2, ∃ y ∈ c1, nodeEq y x = true) ∧
          (∀ x ∈ c1, ∃ y ∈ c2, nodeEq y x = true)) := by
  refine ⟨?_, ?_, fun p1 p2 c1 c2 q1 q2 => nodeEq_mk_iff p1 p2 c1 c2 q1 q2⟩
  · rw [nodeEq_mk_iff]
    refine ⟨rfl, ?_, ?_⟩
    · intro x hx
      rcases List.mem_cons.mp hx with rfl | hx
      · exact ⟨x, by simp, nodeEq_refl x⟩
      · rw [List.mem_singleton.mp hx]
        exact ⟨a, by simp, nodeEq_refl a⟩
    · intro x hx
      rcases List.mem_cons.mp hx with rfl | hx
      · exact ⟨x, by simp, nodeEq_refl x⟩
      · rw [List.mem_singleton.mp hx]
        exact ⟨b, by simp, nodeEq_refl b⟩
  · cases hq : nodeEq (PuzzleNode.mk (some s) [a, b] none)
        (PuzzleNode.mk (some s) [a] none) with
    | false => rfl
    | true =>
      exfalso
      obtain ⟨-, -, h3⟩ := (nodeEq_mk_iff _ _ _ _ _ _).mp hq
      obtain ⟨y, hy, hyb⟩ := h3 b (by simp)
      have hy' := List.mem_singleton.mp hy
      subst hy'
      rw [hab] at hyb
      exact Bool.noConfusion hyb

/-- Witness for C9 with two concrete inequivalent children. -/
theorem C9_node_equality_witness :
    nodeEq (PuzzleNode.mk (some 0) [nodeA, nodeB] none)
        (PuzzleNode.mk (some 0) [nodeB, nodeA] none) = true ∧
    nodeEq (PuzzleNode.mk (some 0) [nodeA, nodeB] none)
        (PuzzleNode.mk (some 0) [nodeA] none) = false :=
  have hab : nodeEq nodeA nodeB = false := by
    simp [nodeA, nodeB, nodeEq]
  ⟨(C9_node_equality 0 nodeA nodeB hab).1,
    (C9_node_equality 0 nodeA nodeB hab).2.1⟩

/-- C10 (implicit claim): for every SudokuPuzzle whose grid contains an
empty cell "*", `extensions()` never returns a value — the local row index
`r` is read before any assignment, raising an unbound-local error —
and it returns normally (the empty list) exactly when the grid is
completely filled. -/
theorem C10_sudoku_extensions_unbound_local (p : SudokuPuzzle) :
    ((∃ row ∈ p.symbols, "*" ∈ row) → p.extensions = none) ∧
    ((∀ row ∈ p.symbols, "*" ∉ row) → p.extensions = some []) := by
  constructor
  · rintro ⟨row, hrow, hstar⟩
    have hany : p.symbols.any (fun row => decide ("*" ∈ row)) = true :=
      List.any_eq_true.mpr ⟨row, hrow, by simpa using hstar⟩
    simp [SudokuPuzzle.extensions, hany]
  · intro h
    have hany : p.symbols.any (fun row => decide ("*" ∈ row)) = false := by
      rw [List.any_eq_false]
      intro row hrow
      simpa using h row hrow
    simp [SudokuPuzzle.extensions, hany]

/-! ## Termination on finite reachable spaces (C5)

Each loop iteration pops one item, and pushes only states whose canonical
string is freshly added to `seen`; so the potential
`work.length + #(reachable canonical strings not yet seen)` strictly
decreases at every non-returning iteration. -/

lemma filter_seen_cons_card (R : Finset String) (seen : List String)
    (c0 : String) (hc0 : c0 ∈ R) (hns : c0 ∉ seen) :
    (R.filter (fun c => c ∉ (c0 :: seen))).card + 1 ≤
      (R.filter (fun c => c ∉ seen)).card := by
  have hsub : R.filter (fun c => c ∉ (c0 :: seen)) =
      (R.filter (fun c => c ∉ seen)).erase c0 := by
    ext x
    simp only [Finset.mem_filter, Finset.mem_erase, List.mem_cons]
    tauto
  rw [hsub]
  have hmem : c0 ∈ R.filter (fun c => c ∉ seen) :=
    Finset.mem_filter.mpr ⟨hc0, hns⟩
  rw [Finset.card_erase_of_mem hmem]
  have hpos := Finset.card_pos.mpr ⟨c0, hmem⟩
  omega

lemma dfsInner_measure {P : PuzzleOps σ} (R : Finset String) (exts : List σ) :
    ∀ seen work seen2 work2, (∀ e ∈ exts, P.canon e ∈ R) →
      dfsInner P exts seen work = Sum.inr (seen2, work2) →
      work2.length + (R.filter (fun c => c ∉ seen2)).card ≤
        work.length + (R.filter (fun c => c ∉ seen)).card := by
  induction exts with
  | nil =>
    intro seen work seen2 work2 _ h
    simp only [dfsInner] at h
    cases h
    exact le_rfl
  | cons ext rest ih =>
    intro seen work seen2 work2 hR h
    simp only [dfsInner] at h
    split at h
    · cases h
    · split at h
      · exact ih seen work seen2 work2
          (fun e he => hR e (List.mem_cons_of_mem _ he)) h
      · next hcond =>
        have hmem : P.canon ext ∈ R := hR ext (List.mem_cons_self _ _)
        have hns : P.canon ext ∉ seen :=
          fun hmem2 => hcond (Or.inr (Or.inl hmem2))
        have hrec := ih (P.canon ext :: seen) (work ++ [ext]) seen2 work2
          (fun e he => hR e (List.mem_cons_of_mem _ he)) h
        have hcard := filter_seen_cons_card R seen (P.canon ext) hmem hns
        simp only [List.length_append, List.length_singleton] at hrec
        omega

lemma bfsInner_measure {P : PuzzleOps σ} (R : Finset String) (exts : List σ) :
    ∀ seen work seen2 work2, (∀ e ∈ exts, P.canon e ∈ R) →
      bfsInner P exts seen work = Sum.inr (seen2, work2) →
      work2.length + (R.filter (fun c => c ∉ seen2)).card ≤
        work.length + (R.filter (fun c => c ∉ seen)).card := by
  induction exts with
  | nil =>
    intro seen work seen2 work2 _ h
    simp only [bfsInner] at h
    cases h
    exact le_rfl
  | cons ext rest ih =>
    intro seen work seen2 work2 hR h
    simp only [bfsInner] at h
    split at h
    · cases h
    · split at h
      · exact ih seen work seen2 work2
          (fun e he => hR e (List.mem_cons_of_mem _ he)) h
      · next hcond =>
        have hmem : P.canon ext ∈ R := hR ext (List.mem_cons_self _ _)
        have hns : P.canon ext ∉ seen :=
          fun hmem2 => hcond (Or.inr (Or.inl hmem2))
        have hrec := ih (P.canon ext :: seen) (work ++ [ext]) seen2 work2
          (fun e he => hR e (List.mem_cons_of_mem _ he)) h
        have hcard := filter_seen_cons_card R seen (P.canon ext) hmem hns
        simp only [List.length_append, List.length_singleton] at hrec
        omega

lemma dfsLoop_no_fuel_exhaustion {P : PuzzleOps σ} {s : σ} (R : Finset String)
    (hR : ∀ t, Reachable P s t → P.canon t ∈ R) :
    ∀ fuel seen work, (∀ x ∈ work, Reachable P s x) →
      work.length + (R.filter (fun c => c ∉ seen)).card < fuel →
      dfsLoop P fuel seen work ≠ none := by
  intro fuel
  induction fuel with
  | zero => intro seen work _ hlt; exact absurd hlt (Nat.not_lt_zero _)
  | succ fuel ih =>
    intro seen work hreach hlt
    cases hlast : work.getLast? with
    | none => simp [dfsLoop, hlast]
    | some item =>
      rw [dfsLoop_succ P fuel seen work item hlast]
      have hitem : Reachable P s item := hreach item (mem_of_getLast_opt hlast)
      cases hscan : dfsInner P (P.extensions item) seen work.dropLast with
      | inl z => simp
      | inr res =>
        obtain ⟨seen2, work2⟩ := res
        apply ih
        · intro y hy
          rcases dfsInner_inr_mem _ _ _ _ _ hscan y hy with hw | he
          · refine hreach y ?_
            rw [getLast_opt_decomp hlast]
            exact List.mem_append.mpr (Or.inl hw)
          · exact Reachable.step hitem he
        · have hexts : ∀ e ∈ P.extensions item, P.canon e ∈ R :=
            fun e he => hR e (Reachable.step hitem he)
          have hm := dfsInner_measure R (P.extensions item) seen
            work.dropLast seen2 work2 hexts hscan
          have hlen := congrArg List.length (getLast_opt_decomp hlast)
          simp only [List.length_append, List.length_singleton] at hlen
          omega

lemma bfsLoop_no_fuel_exhaustion {P : PuzzleOps σ} {s : σ} (R : Finset String)
    (hR : ∀ t, Reachable P s t → P.canon t ∈ R) :
    ∀ fuel seen work, (∀ x ∈ work, Reachable P s x) →
      work.length + (R.filter (fun c => c ∉ seen)).card < fuel →
      bfsLoop P fuel seen work ≠ none := by
  intro fuel
  induction fuel with
  | zero => intro seen work _ hlt; exact absurd hlt (Nat.not_lt_zero _)
  | succ fuel ih =>
    intro seen work hreach hlt
    cases work with
    | nil => simp [bfsLoop]
    | cons item rest =>
      rw [bfsLoop_succ]
      have hitem : Reachable P s item := hreach item (List.mem_cons_self _ _)
      cases hscan : bfsInner P (P.extensions item) seen rest with
      | inl z => simp
      | inr res =>
        obtain ⟨seen2, work2⟩ := res
        apply ih
        · intro y hy
          rcases bfsInner_inr_mem _ _ _ _ _ hscan y hy with hw | he
          · exact hreach y (List.mem_cons_of_mem item hw)
          · exact Reachable.step hitem he
        · have hexts : ∀ e ∈ P.extensions item, P.canon e ∈ R :=
            fun e he => hR e (Reachable.step hitem he)
          have hm := bfsInner_measure R (P.extensions item) seen
            rest seen2 work2 hexts hscan
          simp only [List.length_cons] at hlt
          omega

/-- Both loops terminate (produce an answer for some fuel) whenever the
set of reachable states is covered by a finite list. -/
lemma searches_terminate {P : PuzzleOps σ} {s : σ} (L : List σ)
    (hL : ∀ t, Reachable P s t → t ∈ L) :
    (∃ fuel r, depth_first_solve P fuel s = some r) ∧
    (∃ fuel r, breadth_first_solve P fuel s = some r) := by
  have hR : ∀ t, Reachable P s t → P.canon t ∈ (L.map P.canon).toFinset := by
    intro t ht
    rw [List.mem_toFinset]
    exact List.mem_map.mpr ⟨t, hL t ht, rfl⟩
  have hws : ∀ x ∈ ([s] : List σ), Reachable P s x := by
    intro x hx
    rw [List.mem_singleton.mp hx]
    exact Reachable.refl P s
  constructor
  · have h := dfsLoop_no_fuel_exhaustion (L.map P.canon).toFinset hR
      (2 + (((L.map P.canon).toFinset).filter
        (fun c => c ∉ ([] : List String))).card) [] [s] hws (by
          simp only [List.length_singleton]
          omega)
    cases hr : dfsLoop P (2 + (((L.map P.canon).toFinset).filter
        (fun c => c ∉ ([] : List String))).card) [] [s] with
    | none => exact absurd hr h
    | some r => exact ⟨_, r, hr⟩
  · have h := bfsLoop_no_fuel_exhaustion (L.map P.canon).toFinset hR
      (2 + (((L.map P.canon).toFinset).filter
        (fun c => c ∉ ([] : List String))).card) [] [s] hws (by
          simp only [List.length_singleton]
          omega)
    cases hr : bfsLoop P (2 + (((L.map P.canon).toFinset).filter
        (fun c => c ∉ ([] : List String))).card) [] [s] with
    | none => exact absurd hr h
    | some r => exact ⟨_, r, hr⟩

/-- C5: termination on finite reachable space.  The claim's second
hypothesis (no two distinct reachable states with equal canonical strings
along a cycle) is stated as in the claim; the potential-function proof in
fact only needs finiteness. -/
theorem C5_termination (P : PuzzleOps σ) (s : σ) (L : List σ)
    (hL : ∀ t, Reachable P s t → t ∈ L)
    (hacyc : ∀ t u, Reachable P s t → Reachable P t u → Reachable P u t →
      P.canon t = P.canon u → t = u) :
    (∃ fuel r, depth_first_solve P fuel s = some r) ∧
    (∃ fuel r, breadth_first_solve P fuel s = some r) :=
  searches_terminate L hL

/-- Reachability in the chain puzzle only moves upward. -/
lemma chainPuzzle_reach_mono : ∀ a b, Reachable chainPuzzle a b → a ≤ b := by
  intro a b h
  have h2 : Relation.ReflTransGen
      (fun x y => y ∈ chainPuzzle.extensions x) a b := h
  clear h
  induction h2 with
  | refl => omega
  | @tail m k hb hc ih =>
    simp only [chainPuzzle] at hc
    by_cases hm : m < 2
    · rw [if_pos hm] at hc
      have := List.mem_singleton.mp hc
      omega
    · rw [if_neg hm] at hc
      simp at hc

/-- Reachable states of the chain puzzle are bounded by 2. -/
lemma chainPuzzle_reach_le : ∀ t, Reachable chainPuzzle 0 t → t ≤ 2 := by
  intro t h
  have h2 : Relation.ReflTransGen
      (fun x y => y ∈ chainPuzzle.extensions x) 0 t := h
  clear h
  induction h2 with
  | refl => omega
  | @tail m k hb hc ih =>
    simp only [chainPuzzle] at hc
    by_cases hm : m < 2
    · rw [if_pos hm] at hc
      have := List.mem_singleton.mp hc
      omega
    · rw [if_neg hm] at hc
      simp at hc

/-- Witness for C5 on the chain puzzle. -/
theorem C5_termination_witness :
    (∃ fuel r, depth_first_solve chainPuzzle fuel 0 = some r) ∧
    (∃ fuel r, breadth_first_solve chainPuzzle fuel 0 = some r) :=
  C5_termination chainPuzzle 0 [0, 1, 2]
    (fun t ht => by
      have h := chainPuzzle_reach_le t ht
      simp only [List.mem_cons, List.mem_singleton]
      omega)
    (fun t u _ htu hut _ =>
      le_antisymm (chainPuzzle_reach_mono t u htu)
        (chainPuzzle_reach_mono u t hut))

/-- Witness for C10 on a 2x2 grid with a hole and a filled 2x2 grid. -/
theorem C10_sudoku_extensions_unbound_local_witness :
    SudokuPuzzle.extensions sudokuWithHole = none ∧
    SudokuPuzzle.extensions sudokuFull = some [] :=
  ⟨(C10_sudoku_extensions_unbound_local sudokuWithHole).1
      ⟨["A", "*"], by simp [sudokuWithHole], by simp⟩,
    (C10_sudoku_extensions_unbound_local sudokuFull).2 (by
      intro row hrow
      simp [sudokuFull] at hrow
      rcases hrow with rfl | rfl
      · simp
      · simp)⟩

/-! ## Completeness machinery (C2) -/

lemma getLast_opt_none {α : Type} {l : List α} (h : l.getLast? = none) :
    l = [] := by
  cases l with
  | nil => rfl
  | cons a as => simp [List.getLast?] at h

lemma ClosedW_mono {P : PuzzleOps σ} {seen seen2 : List String} {x : σ}
    (hsub : ∀ c ∈ seen, c ∈ seen2) (h : ClosedW P seen x) :
    ClosedW P seen2 x := by
  intro e he
  obtain ⟨h1, h2⟩ := h e he
  refine ⟨h1, ?_⟩
  rcases h2 with h2 | h2 | h2
  · exact Or.inl h2
  · exact Or.inr (Or.inl (hsub _ h2))
  · exact Or.inr (Or.inr h2)

/-- Full specification of a completed (non-returning) depth-first inner
scan: the seen set and the work list only grow, every scanned extension is
unsolved and accounted for (pruned or recorded), every new work item is a
scanned extension with a recorded canonical string, and every new seen
string is the canonical string of a pushed extension. -/
lemma dfsInner_inr_spec {P : PuzzleOps σ} (exts : List σ) :
    ∀ seen work seen2 work2,
      dfsInner P exts seen work = Sum.inr (seen2, work2) →
      (∀ c ∈ seen, c ∈ seen2) ∧
      (∀ y ∈ work, y ∈ work2) ∧
      (∀ e ∈ exts, P.is_solved e = false ∧
        (P.fail_fast e = true ∨ P.canon e ∈ seen2 ∨ P.extensions e = [])) ∧
      (∀ y ∈ work2, y ∈ work ∨ (y ∈ exts ∧ P.canon y ∈ seen2)) ∧
      (∀ c ∈ seen2, c ∈ seen ∨
        ∃ y, y ∈ work2 ∧ y ∈ exts ∧ P.canon y = c) := by
  induction exts with
  | nil =>
    intro seen work seen2 work2 h
    simp only [dfsInner] at h
    cases h
    exact ⟨fun c hc => hc, fun y hy => hy, by simp,
      fun y hy => Or.inl hy, fun c hc => Or.inl hc⟩
  | cons ext rest ih =>
    intro seen work seen2 work2 h
    simp only [dfsInner] at h
    split at h
    · cases h
    · next hs =>
      have hsf : P.is_solved ext = false := by simpa using hs
      split at h
      · next hcond =>
        obtain ⟨h1, h2, h3, h4, h5⟩ := ih seen work seen2 work2 h
        refine ⟨h1, h2, ?_, ?_, ?_⟩
        · intro e he
          rcases List.mem_cons.mp he with rfl | he
          · refine ⟨hsf, ?_⟩
            rcases hcond with hc | hc | hc
            · exact Or.inl hc
            · exact Or.inr (Or.inl (h1 _ hc))
            · exact absurd hc not_false
          · exact h3 e he
        · intro y hy
          rcases h4 y hy with hw | ⟨he, hc⟩
          · exact Or.inl hw
          · exact Or.inr ⟨List.mem_cons_of_mem _ he, hc⟩
        · intro c hc
          rcases h5 c hc with hold | ⟨y, hy1, hy2, hy3⟩
          · exact Or.inl hold
          · exact Or.inr ⟨y, hy1, List.mem_cons_of_mem _ hy2, hy3⟩
      · next hcond =>
        obtain ⟨h1, h2, h3, h4, h5⟩ :=
          ih (P.canon ext :: seen) (work ++ [ext]) seen2 work2 h
        have hcin : P.canon ext ∈ seen2 := h1 _ (List.mem_cons_self _ _)
        have hein : ext ∈ work2 :=
          h2 ext (List.mem_append.mpr (Or.inr (List.mem_singleton.mpr rfl)))
        refine ⟨fun c hc => h1 c (List.mem_cons_of_mem _ hc),
          fun y hy => h2 y (List.mem_append.mpr (Or.inl hy)), ?_, ?_, ?_⟩
        · intro e he
          rcases List.mem_cons.mp he with rfl | he
          · exact ⟨hsf, Or.inr (Or.inl hcin)⟩
          · exact h3 e he
        · intro y hy
          rcases h4 y hy with hw | ⟨he, hc⟩
          · rcases List.mem_append.mp hw with hw | hw
            · exact Or.inl hw
            · rw [List.mem_singleton.mp hw]
              exact Or.inr ⟨List.mem_cons_self _ _, hcin⟩
          · exact Or.inr ⟨List.mem_cons_of_mem _ he, hc⟩
        · intro c hc
          rcases h5 c hc with hold | ⟨y, hy1, hy2, hy3⟩
          · rcases List.mem_cons.mp hold with rfl | hold
            · exact Or.inr ⟨ext, hein, List.mem_cons_self _ _, rfl⟩
            · exact Or.inl hold
          · exact Or.inr ⟨y, hy1, List.mem_cons_of_mem _ hy2, hy3⟩

lemma bfsInner_inr_spec {P : PuzzleOps σ} (exts : List σ) :
    ∀ seen work seen2 work2,
      bfsInner P exts seen work = Sum.inr (seen2, work2) →
      (∀ c ∈ seen, c ∈ seen2) ∧
      (∀ y ∈ work, y ∈ work2) ∧
      (∀ e ∈ exts, P.is_solved e = false ∧
        (P.fail_fast e = true ∨ P.canon e ∈ seen2 ∨ P.extensions e = [])) ∧
      (∀ y ∈ work2, y ∈ work ∨ (y ∈ exts ∧ P.canon y ∈ seen2)) ∧
      (∀ c ∈ seen2, c ∈ seen ∨
        ∃ y, y ∈ work2 ∧ y ∈ exts ∧ P.canon y = c) := by
  induction exts with
  | nil =>
    intro seen work seen2 work2 h
    simp only [bfsInner] at h
    cases h
    exact ⟨fun c hc => hc, fun y hy => hy, by simp,
      fun y hy => Or.inl hy, fun c hc => Or.inl hc⟩
  | cons ext rest ih =>
    intro seen work seen2 work2 h
    simp only [bfsInner] at h
    split at h
    · cases h
    · next hs =>
      have hsf : P.is_solved ext = false := by simpa using hs
      split at h
      · next hcond =>
        obtain ⟨h1, h2, h3, h4, h5⟩ := ih seen work seen2 work2 h
        refine ⟨h1, h2, ?_, ?_, ?_⟩
        · intro e he
          rcases List.mem_cons.mp he with rfl | he
          · refine ⟨hsf, ?_⟩
            rcases hcond with hc | hc | hc
            · exact Or.inl hc
            · exact Or.inr (Or.inl (h1 _ hc))
            · exact Or.inr (Or.inr (by simpa using hc))
          · exact h3 e he
        · intro y hy
          rcases h4 y hy with hw | ⟨he, hc⟩
          · exact Or.inl hw
          · exact Or.inr ⟨List.mem_cons_of_mem _ he, hc⟩
        · intro c hc
          rcases h5 c hc with hold | ⟨y, hy1, hy2, hy3⟩
          · exact Or.inl hold
          · exact Or.inr ⟨y, hy1, List.mem_cons_of_mem _ hy2, hy3⟩
      · next hcond =>
        obtain ⟨h1, h2, h3, h4, h5⟩ :=
          ih (P.canon ext :: seen) (work ++ [ext]) seen2 work2 h
        have hcin : P.canon ext ∈ seen2 := h1 _ (List.mem_cons_self _ _)
        have hein : ext ∈ work2 :=
          h2 ext (List.mem_append.mpr (Or.inr (List.mem_singleton.mpr rfl)))
        refine ⟨fun c hc => h1 c (List.mem_cons_of_mem _ hc),
          fun y hy => h2 y (List.mem_append.mpr (Or.inl hy)), ?_, ?_, ?_⟩
        · intro e he
          rcases List.mem_cons.mp he with rfl | he
          · exact ⟨hsf, Or.inr (Or.inl hcin)⟩
          · exact h3 e he
        · intro y hy
          rcases h4 y hy with hw | ⟨he, hc⟩
          · rcases List.mem_append.mp hw with hw | hw
            · exact Or.inl hw
            · rw [List.mem_singleton.mp hw]
              exact Or.inr ⟨List.mem_cons_self _ _, hcin⟩
          · exact Or.inr ⟨List.mem_cons_of_mem _ he, hc⟩
        · intro c hc
          rcases h5 c hc with hold | ⟨y, hy1, hy2, hy3⟩
          · rcases List.mem_cons.mp hold with rfl | hold
            · exact Or.inr ⟨ext, hein, List.mem_cons_self _ _, rfl⟩
            · exact Or.inl hold
          · exact Or.inr ⟨y, hy1, List.mem_cons_of_mem _ hy2, hy3⟩

/-- One depth-first iteration preserves the search invariant. -/
lemma dfs_inv_preserved {P : PuzzleOps σ} {s : σ} {seen : List String}
    {work : List σ} {item : σ} {seen2 : List String} {work2 : List σ}
    (hinv : SearchInv P s seen work) (hlast : work.getLast? = some item)
    (hscan : dfsInner P (P.extensions item) seen work.dropLast =
      Sum.inr (seen2, work2)) :
    SearchInv P s seen2 work2 := by
  obtain ⟨hreach, hstart, hseen⟩ := hinv
  obtain ⟨h1, h2, h3, h4, h5⟩ := dfsInner_inr_spec _ _ _ _ _ hscan
  have hitem : Reachable P s item := hreach item (mem_of_getLast_opt hlast)
  have hdecomp := getLast_opt_decomp hlast
  have hclitem : ClosedW P seen2 item := by
    intro e he
    obtain ⟨ha, hb⟩ := h3 e he
    exact ⟨ha, hb⟩
  have hmemwork : ∀ y, y ∈ work → y ∈ work2 ∨ y = item := by
    intro y hy
    rw [hdecomp] at hy
    rcases List.mem_append.mp hy with hy | hy
    · exact Or.inl (h2 y hy)
    · exact Or.inr (List.mem_singleton.mp hy)
  refine ⟨?_, ?_, ?_⟩
  · intro y hy
    rcases h4 y hy with hw | ⟨he, _⟩
    · refine hreach y ?_
      rw [hdecomp]
      exact List.mem_append.mpr (Or.inl hw)
    · exact Reachable.step hitem he
  · rcases hstart with hst | hst
    · rcases hmemwork s hst with hw | rfl
      · exact Or.inl hw
      · exact Or.inr hclitem
    · exact Or.inr (ClosedW_mono h1 hst)
  · intro c hc
    rcases h5 c hc with hold | ⟨y, hy1, hy2, hy3⟩
    · obtain ⟨y, hr, hcy, hwc⟩ := hseen c hold
      refine ⟨y, hr, hcy, ?_⟩
      rcases hwc with hw | hcl
      · rcases hmemwork y hw with hw2 | rfl
        · exact Or.inl hw2
        · exact Or.inr hclitem
      · exact Or.inr (ClosedW_mono h1 hcl)
    · exact ⟨y, Reachable.step hitem hy2, hy3, Or.inl hy1⟩

/-- One breadth-first iteration preserves the search invariant. -/
lemma bfs_inv_preserved {P : PuzzleOps σ} {s : σ} {seen : List String}
    {item : σ} {rest : List σ} {seen2 : List String} {work2 : List σ}
    (hinv : SearchInv P s seen (item :: rest))
    (hscan : bfsInner P (P.extensions item) seen rest =
      Sum.inr (seen2, work2)) :
    SearchInv P s seen2 work2 := by
  obtain ⟨hreach, hstart, hseen⟩ := hinv
  obtain ⟨h1, h2, h3, h4, h5⟩ := bfsInner_inr_spec _ _ _ _ _ hscan
  have hitem : Reachable P s item := hreach item (List.mem_cons_self _ _)
  have hclitem : ClosedW P seen2 item := by
    intro e he
    obtain ⟨ha, hb⟩ := h3 e he
    exact ⟨ha, hb⟩
  have hmemwork : ∀ y, y ∈ item :: rest → y ∈ work2 ∨ y = item := by
    intro y hy
    rcases List.mem_cons.mp hy with rfl | hy
    · exact Or.inr rfl
    · exact Or.inl (h2 y hy)
  refine ⟨?_, ?_, ?_⟩
  · intro y hy
    rcases h4 y hy with hw | ⟨he, _⟩
    · exact hreach y (List.mem_cons_of_mem _ hw)
    · exact Reachable.step hitem he
  · rcases hstart with hst | hst
    · rcases hmemwork s hst with hw | rfl
      · exact Or.inl hw
      · exact Or.inr hclitem
    · exact Or.inr (ClosedW_mono h1 hst)
  · intro c hc
    rcases h5 c hc with hold | ⟨y, hy1, hy2, hy3⟩
    · obtain ⟨y, hr, hcy, hwc⟩ := hseen c hold
      refine ⟨y, hr, hcy, ?_⟩
      rcases hwc with hw | hcl
      · rcases hmemwork y hw with hw2 | rfl
        · exact Or.inl hw2
        · exact Or.inr hclitem
      · exact Or.inr (ClosedW_mono h1 hcl)
    · exact ⟨y, Reachable.step hitem hy2, hy3, Or.inl hy1⟩

/-- When the work list has emptied with everything closed, no fail-fast-free
chain ends in a solved state (the canonical strings must be injective on
reachable states so that a seen string identifies its state). -/
lemma no_good_chain_of_closed {P : PuzzleOps σ} {s : σ} (seen : List String)
    (hinj : ∀ t u, Reachable P s t → Reachable P s u →
      P.canon t = P.canon u → t = u)
    (hseen : ∀ c ∈ seen, ∃ y, Reachable P s y ∧ P.canon y = c ∧
      ClosedW P seen y) :
    ∀ l x0, Reachable P s x0 → ClosedW P seen x0 → chainFrom P x0 l →
      (∀ y ∈ l, P.fail_fast y = false) →
      ∀ z, l.getLast? = some z → P.is_solved z = false := by
  intro l
  induction l with
  | nil => intro x0 _ _ _ _ z hz; simp at hz
  | cons y1 rest ih =>
    intro x0 hx0 hcl hch hff z hz
    simp only [chainFrom] at hch
    obtain ⟨hy1, hch2⟩ := hch
    obtain ⟨hns, hdisj⟩ := hcl y1 hy1
    have hry1 : Reachable P s y1 := Reachable.step hx0 hy1
    cases rest with
    | nil =>
      simp only [List.getLast?_singleton, Option.some.injEq] at hz
      rw [← hz]
      exact hns
    | cons y2 rest2 =>
      rw [List.getLast?_cons_cons] at hz
      simp only [chainFrom] at hch2
      obtain ⟨hy2, hch3⟩ := hch2
      have hffy1 : P.fail_fast y1 = false := hff y1 (List.mem_cons_self _ _)
      rcases hdisj with hf | hc | he
      · rw [hffy1] at hf
        exact Bool.noConfusion hf
      · obtain ⟨y', hry', hcy', hcl'⟩ := hseen _ hc
        have heq : y' = y1 := hinj y' y1 hry' hry1 hcy'
        rw [heq] at hcl'
        exact ih y1 hry1 hcl' ⟨hy2, hch3⟩
          (fun w hw => hff w (List.mem_cons_of_mem _ hw)) z hz
      · rw [he] at hy2
        exact absurd hy2 (List.not_mem_nil y2)

/-- A running depth-first search satisfying the invariant never returns
`None` while a fail-fast-free chain to a solved state exists. -/
lemma dfsLoop_completeness {P : PuzzleOps σ} {s : σ}
    (hinj : ∀ t u, Reachable P s t → Reachable P s u →
      P.canon t = P.canon u → t = u)
    (hchain : ∃ l, chainFrom P s l ∧ (∀ y ∈ l, P.fail_fast y = false) ∧
      ∃ z, l.getLast? = some z ∧ P.is_solved z = true) :
    ∀ fuel seen work, SearchInv P s seen work →
      dfsLoop P fuel seen work ≠ some none := by
  intro fuel
  induction fuel with
  | zero => intro seen work _ heq; simp [dfsLoop] at heq
  | succ fuel ih =>
    intro seen work hinv heq
    cases hlast : work.getLast? with
    | none =>
      have hwnil : work = [] := getLast_opt_none hlast
      obtain ⟨l, hch, hff, z, hlz, hsz⟩ := hchain
      have hcls : ClosedW P seen s := by
        rcases hinv.2.1 with h | h
        · rw [hwnil] at h
          exact absurd h (List.not_mem_nil s)
        · exact h
      have hseen2 : ∀ c ∈ seen, ∃ y, Reachable P s y ∧ P.canon y = c ∧
          ClosedW P seen y := by
        intro c hc
        obtain ⟨y, hr1, hr2, hr3⟩ := hinv.2.2 c hc
        rcases hr3 with hr3 | hr3
        · rw [hwnil] at hr3
          exact absurd hr3 (List.not_mem_nil y)
        · exact ⟨y, hr1, hr2, hr3⟩
      have hns := no_good_chain_of_closed seen hinj hseen2 l s
        (Reachable.refl P s) hcls hch hff z hlz
      rw [hsz] at hns
      exact Bool.noConfusion hns
    | some item =>
      rw [dfsLoop_succ P fuel seen work item hlast] at heq
      cases hscan : dfsInner P (P.extensions item) seen work.dropLast with
      | inl zz =>
        rw [hscan] at heq
        simp at heq
      | inr res =>
        obtain ⟨seen2, work2⟩ := res
        rw [hscan] at heq
        exact ih seen2 work2 (dfs_inv_preserved hinv hlast hscan) heq

lemma bfsLoop_completeness {P : PuzzleOps σ} {s : σ}
    (hinj : ∀ t u, Reachable P s t → Reachable P s u →
      P.canon t = P.canon u → t = u)
    (hchain : ∃ l, chainFrom P s l ∧ (∀ y ∈ l, P.fail_fast y = false) ∧
      ∃ z, l.getLast? = some z ∧ P.is_solved z = true) :
    ∀ fuel seen work, SearchInv P s seen work →
      bfsLoop P fuel seen work ≠ some none := by
  intro fuel
  induction fuel with
  | zero => intro seen work _ heq; simp [bfsLoop] at heq
  | succ fuel ih =>
    intro seen work hinv heq
    cases work with
    | nil =>
      obtain ⟨l, hch, hff, z, hlz, hsz⟩ := hchain
      have hcls : ClosedW P seen s := by
        rcases hinv.2.1 with h | h
        · exact absurd h (List.not_mem_nil s)
        · exact h
      have hseen2 : ∀ c ∈ seen, ∃ y, Reachable P s y ∧ P.canon y = c ∧
          ClosedW P seen y := by
        intro c hc
        obtain ⟨y, hr1, hr2, hr3⟩ := hinv.2.2 c hc
        rcases hr3 with hr3 | hr3
        · exact absurd hr3 (List.not_mem_nil y)
        · exact ⟨y, hr1, hr2, hr3⟩
      have hns := no_good_chain_of_closed seen hinj hseen2 l s
        (Reachable.refl P s) hcls hch hff z hlz
      rw [hsz] at hns
      exact Bool.noConfusion hns
    | cons item rest =>
      rw [bfsLoop_succ] at heq
      cases hscan : bfsInner P (P.extensions item) seen rest with
      | inl zz =>
        rw [hscan] at heq
        simp at heq
      | inr res =>
        obtain ⟨seen2, work2⟩ := res
        rw [hscan] at heq
        exact ih seen2 work2 (bfs_inv_preserved hinv hscan) heq

/-- C2 (amended): completeness modulo fail-fast, for initial states whose
reachable state space is finite and whose canonical strings are injective
on reachable states.  If a solved state is reachable from `s` by at least
one extension step through a chain none of whose states reports
fail-fast, both entry points return some solution node rather than the
absent result. -/
theorem C2_completeness (P : PuzzleOps σ) (s : σ)
    (hfin : ∃ L : List σ, ∀ t, Reachable P s t → t ∈ L)
    (hinj : ∀ t u, Reachable P s t → Reachable P s u →
      P.canon t = P.canon u → t = u)
    (hchain : ∃ l, l ≠ [] ∧ chainFrom P s l ∧ P.fail_fast s = false ∧
      (∀ y ∈ l, P.fail_fast y = false) ∧
      ∃ z, l.getLast? = some z ∧ P.is_solved z = true) :
    (∃ fuel n, depth_first_solve P fuel s = some (some n)) ∧
    (∃ fuel n, breadth_first_solve P fuel s = some (some n)) := by
  obtain ⟨L, hL⟩ := hfin
  obtain ⟨⟨fuel1, r1, hr1⟩, ⟨fuel2, r2, hr2⟩⟩ := searches_terminate L hL
  obtain ⟨l, hlne, hch, hffs, hff, z, hlz, hsz⟩ := hchain
  have hchain2 : ∃ l, chainFrom P s l ∧
      (∀ y ∈ l, P.fail_fast y = false) ∧
      ∃ z, l.getLast? = some z ∧ P.is_solved z = true :=
    ⟨l, hch, hff, z, hlz, hsz⟩
  have hinv0 : SearchInv P s [] [s] := by
    refine ⟨?_, Or.inl (List.mem_singleton.mpr rfl), ?_⟩
    · intro x hx
      rw [List.mem_singleton.mp hx]
      exact Reachable.refl P s
    · intro c hc
      exact absurd hc (List.not_mem_nil c)
  constructor
  · have hne := dfsLoop_completeness hinj hchain2 fuel1 [] [s] hinv0
    cases r1 with
    | none => exact absurd hr1 hne
    | some n => exact ⟨fuel1, n, hr1⟩
  · have hne := bfsLoop_completeness hinj hchain2 fuel2 [] [s] hinv0
    cases r2 with
    | none => exact absurd hr2 hne
    | some n => exact ⟨fuel2, n, hr2⟩

/-- Witness for the amended C2 on the chain puzzle. -/
theorem C2_completeness_witness :
    (∃ fuel n, depth_first_solve chainPuzzle fuel 0 = some (some n)) ∧
    (∃ fuel n, breadth_first_solve chainPuzzle fuel 0 = some (some n)) :=
  C2_completeness chainPuzzle 0
    ⟨[0, 1, 2], fun t ht => by
      have h := chainPuzzle_reach_le t ht
      simp only [List.mem_cons, List.mem_singleton]
      omega⟩
    (fun t u ht hu heq => by
      have h1 := chainPuzzle_reach_le t ht
      have h2 := chainPuzzle_reach_le u hu
      interval_cases t <;> interval_cases u <;>
        first
          | rfl
          | exact absurd heq (by decide))
    ⟨[1, 2], by simp, by simp [chainFrom, chainPuzzle], rfl,
      by intro y hy; rfl, 2, rfl, rfl⟩

/-! ## The depth-first run on `divergePuzzle` never terminates -/

lemma divergeSeen_succ (k : Nat) (hk : 3 ≤ k) :
    divergeSeen (k + 1) = divergePuzzle.canon (k + 1) :: divergeSeen k := by
  unfold divergeSeen
  have h1 : k + 1 - 2 = (k - 2) + 1 := by omega
  rw [h1, List.range'_concat]
  have h2 : 3 + 1 * (k - 2) = k + 1 := by omega
  rw [h2]
  simp [List.reverse_append]

lemma canon_replicate_inj {j k : Nat}
    (h : divergePuzzle.canon j = divergePuzzle.canon k) : j = k := by
  simp only [divergePuzzle] at h
  have h2 := congrArg (fun s : String => s.data.length) h
  simpa using h2

lemma canon_not_mem_divergeSeen (k : Nat) (hk : 3 ≤ k) :
    divergePuzzle.canon (k + 1) ∉ divergeSeen k := by
  unfold divergeSeen
  intro hmem
  rw [List.mem_append] at hmem
  rcases hmem with h | h
  · rw [List.mem_map] at h
    obtain ⟨j, hj, hjc⟩ := h
    rw [List.mem_reverse, List.mem_range'_1] at hj
    have := canon_replicate_inj hjc
    omega
  · rw [List.mem_singleton] at h
    have := canon_replicate_inj h
    omega

lemma divergePuzzle_loop : ∀ fuel k, 3 ≤ k →
    dfsLoop divergePuzzle fuel (divergeSeen k) [1, k] = none := by
  intro fuel
  induction fuel with
  | zero => intro k hk; rfl
  | succ fuel ih =>
    intro k hk
    rw [dfsLoop_succ divergePuzzle fuel (divergeSeen k) [1, k] k rfl]
    have hexts : divergePuzzle.extensions k = [k + 1] := by
      simp only [divergePuzzle]
      rw [if_neg (by omega), if_neg (by omega), if_neg (by omega)]
    rw [hexts]
    simp only [dfsInner]
    rw [if_neg (by simp [divergePuzzle]; omega)]
    rw [if_neg (by
      rintro (h | h | h)
      · simp [divergePuzzle] at h
      · exact canon_not_mem_divergeSeen k hk h
      · exact h)]
    show dfsLoop divergePuzzle fuel
      (divergePuzzle.canon (k + 1) :: divergeSeen k) [1, k + 1] = none
    rw [← divergeSeen_succ k hk]
    exact ih (k + 1) (by omega)

lemma divergePuzzle_runs_out : ∀ fuel,
    depth_first_solve divergePuzzle fuel 0 = none := by
  intro fuel
  cases fuel with
  | zero => rfl
  | succ fuel =>
    show dfsLoop divergePuzzle (fuel + 1) [] [0] = none
    rw [dfsLoop_succ divergePuzzle fuel [] [0] 0 rfl]
    rw [show dfsInner divergePuzzle (divergePuzzle.extensions 0) []
        (List.dropLast [0]) = Sum.inr (divergeSeen 3, [1, 3]) from rfl]
    exact divergePuzzle_loop fuel 3 (by omega)

/-- C2 counterexample.  First conjunct: on `collisionPuzzle` the claim's
hypotheses hold (the chain `0 → 2 → 3` ends solved and nothing fail-fasts)
yet `depth_first_solve` returns the absent result: the dead end `1` is
enqueued first (see C3) and records the shared canonical string "X", which
then prunes `2`.  Second conjunct: on `divergePuzzle` the hypotheses hold
but the depth-first run dives into the infinite branch and never produces
any result at all (every fuel is exhausted). -/
theorem C2_counterexample :
    (chainFrom collisionPuzzle 0 [2, 3] ∧
      collisionPuzzle.is_solved 3 = true ∧
      collisionPuzzle.fail_fast 0 = false ∧
      collisionPuzzle.fail_fast 2 = false ∧
      collisionPuzzle.fail_fast 3 = false ∧
      depth_first_solve collisionPuzzle 3 0 = some none ∧
      ¬ ∃ fuel n,
        depth_first_solve collisionPuzzle fuel 0 = some (some n)) ∧
    (chainFrom divergePuzzle 0 [1, 2] ∧
      divergePuzzle.is_solved 2 = true ∧
      divergePuzzle.fail_fast 0 = false ∧
      divergePuzzle.fail_fast 1 = false ∧
      divergePuzzle.fail_fast 2 = false ∧
      ∀ fuel, depth_first_solve divergePuzzle fuel 0 = none) := by
  constructor
  · refine ⟨by simp [chainFrom, collisionPuzzle], rfl, rfl, rfl, rfl, rfl, ?_⟩
    rintro ⟨fuel, n, h⟩
    rcases Nat.le_total fuel 3 with hle | hle
    · have h1 : dfsLoop collisionPuzzle 3 [] [0] = some (some n) :=
        dfsLoop_mono fuel 3 [] [0] (some n) h hle
      have h2 : dfsLoop collisionPuzzle 3 [] [0] = some none := rfl
      rw [h2] at h1
      exact Option.noConfusion (Option.some.inj h1)
    · have h1 : dfsLoop collisionPuzzle fuel [] [0] = some none :=
        dfsLoop_mono 3 fuel [] [0] none rfl hle
      have h3 : dfsLoop collisionPuzzle fuel [] [0] = some (some n) := h
      rw [h1] at h3
      exact Option.noConfusion (Option.some.inj h3)
  · exact ⟨by simp [chainFrom, divergePuzzle], rfl, rfl, rfl, rfl,
      divergePuzzle_runs_out⟩

/-! ## Visit counts (C6) -/

/-- The instrumented depth-first loop computes the same answer as the
plain one. -/
lemma dfsLoopTrace_snd {P : PuzzleOps σ} :
    ∀ fuel seen work popped,
      (dfsLoopTrace P fuel seen work popped).2 = dfsLoop P fuel seen work := by
  intro fuel
  induction fuel with
  | zero => intro seen work popped; rfl
  | succ fuel ih =>
    intro seen work popped
    cases hlast : work.getLast? with
    | none => simp only [dfsLoopTrace, dfsLoop, hlast]
    | some item =>
      simp only [dfsLoopTrace, dfsLoop, hlast]
      cases hscan : dfsInner P (P.extensions item) seen work.dropLast with
      | inl z => rfl
      | inr res =>
        obtain ⟨seen2, work2⟩ := res
        exact ih seen2 work2 (popped ++ [item])

lemma bfsLoopTrace_snd {P : PuzzleOps σ} :
    ∀ fuel seen work popped,
      (bfsLoopTrace P fuel seen work popped).2 = bfsLoop P fuel seen work := by
  intro fuel
  induction fuel with
  | zero => intro seen work popped; rfl
  | succ fuel ih =>
    intro seen work popped
    cases work with
    | nil => simp only [bfsLoopTrace, bfsLoop]
    | cons item rest =>
      simp only [bfsLoopTrace, bfsLoop]
      cases hscan : bfsInner P (P.extensions item) seen rest with
      | inl z => rfl
      | inr res =>
        obtain ⟨seen2, work2⟩ := res
        exact ih seen2 work2 (popped ++ [item])

lemma seenBound_le_cap {P : PuzzleOps σ} {s : σ} (seen : List String)
    (c : String) :
    seenBound P s seen c ≤ if c = P.canon s then 2 else 1 := by
  unfold seenBound
  by_cases h1 : c ∈ seen
  · rw [if_pos h1]
  · rw [if_neg h1]
    by_cases h2 : c = P.canon s
    · rw [if_pos h2, if_pos h2]
      omega
    · rw [if_neg h2, if_neg h2]
      omega

lemma seenBound_mono {P : PuzzleOps σ} {s : σ} {seen seen2 : List String}
    (h : ∀ x ∈ seen, x ∈ seen2) (c : String) :
    seenBound P s seen c ≤ seenBound P s seen2 c := by
  unfold seenBound
  by_cases h1 : c ∈ seen
  · rw [if_pos h1, if_pos (h c h1)]
  · rw [if_neg h1]
    by_cases h2 : c ∈ seen2
    · rw [if_pos h2]
      by_cases h3 : c = P.canon s
      · rw [if_pos h3, if_pos h3]
        omega
      · rw [if_neg h3, if_neg h3]
        omega
    · rw [if_neg h2]

/-- A completed inner depth-first scan can add one occurrence of a
canonical string to the work list only while recording it in `seen`, so
the per-string budget `seenBound` is respected. -/
lemma dfsInner_count {P : PuzzleOps σ} {s : σ} (exts : List σ) :
    ∀ seen work seen2 work2 (k : Nat) (c : String),
      dfsInner P exts seen work = Sum.inr (seen2, work2) →
      k + (work.map P.canon).count c ≤ seenBound P s seen c →
      k + (work2.map P.canon).count c ≤ seenBound P s seen2 c := by
  induction exts with
  | nil =>
    intro seen work seen2 work2 k c h hb
    simp only [dfsInner] at h
    cases h
    exact hb
  | cons ext rest ih =>
    intro seen work seen2 work2 k c h hb
    simp only [dfsInner] at h
    split at h
    · cases h
    · split at h
      · exact ih _ _ _ _ k c h hb
      · next hcond =>
        refine ih _ _ _ _ k c h ?_
        have hns : P.canon ext ∉ seen :=
          fun hm => hcond (Or.inr (Or.inl hm))
        rw [List.map_append, List.count_append]
        by_cases hc : c = P.canon ext
        · have hcnt : ((([ext]).map P.canon).count c) = 1 := by
            rw [hc]
            simp
          rw [hcnt]
          have hb2 : seenBound P s seen c = if c = P.canon s then 1 else 0 := by
            unfold seenBound
            rw [if_neg (hc ▸ hns)]
          have hb3 : seenBound P s (P.canon ext :: seen) c =
              if c = P.canon s then 2 else 1 := by
            unfold seenBound
            rw [if_pos (by rw [hc]; exact List.mem_cons_self _ _)]
          rw [hb3]
          rw [hb2] at hb
          by_cases h3 : c = P.canon s
          · rw [if_pos h3] at hb ⊢
            omega
          · rw [if_neg h3] at hb ⊢
            omega
        · have hcnt : ((([ext]).map P.canon).count c) = 0 := by
            simp only [List.map_cons, List.map_nil]
            rw [List.count_singleton']
            simp [Ne.symm hc]
          rw [hcnt]
          have hmono := @seenBound_mono σ P s seen (P.canon ext :: seen)
            (fun x hx => List.mem_cons_of_mem _ hx) c
          omega

lemma bfsInner_count {P : PuzzleOps σ} {s : σ} (exts : List σ) :
    ∀ seen work seen2 work2 (k : Nat) (c : String),
      bfsInner P exts seen work = Sum.inr (seen2, work2) →
      k + (work.map P.canon).count c ≤ seenBound P s seen c →
      k + (work2.map P.canon).count c ≤ seenBound P s seen2 c := by
  induction exts with
  | nil =>
    intro seen work seen2 work2 k c h hb
    simp only [bfsInner] at h
    cases h
    exact hb
  | cons ext rest ih =>
    intro seen work seen2 work2 k c h hb
    simp only [bfsInner] at h
    split at h
    · cases h
    · split at h
      · exact ih _ _ _ _ k c h hb
      · next hcond =>
        refine ih _ _ _ _ k c h ?_
        have hns : P.canon ext ∉ seen :=
          fun hm => hcond (Or.inr (Or.inl hm))
        rw [List.map_append, List.count_append]
        by_cases hc : c = P.canon ext
        · have hcnt : ((([ext]).map P.canon).count c) = 1 := by
            rw [hc]
            simp
          rw [hcnt]
          have hb2 : seenBound P s seen c = if c = P.canon s then 1 else 0 := by
            unfold seenBound
            rw [if_neg (hc ▸ hns)]
          have hb3 : seenBound P s (P.canon ext :: seen) c =
              if c = P.canon s then 2 else 1 := by
            unfold seenBound
            rw [if_pos (by rw [hc]; exact List.mem_cons_self _ _)]
          rw [hb3]
          rw [hb2] at hb
          by_cases h3 : c = P.canon s
          · rw [if_pos h3] at hb ⊢
            omega
          · rw [if_neg h3] at hb ⊢
            omega
        · have hcnt : ((([ext]).map P.canon).count c) = 0 := by
            simp only [List.map_cons, List.map_nil]
            rw [List.count_singleton']
            simp [Ne.symm hc]
          rw [hcnt]
          have hmono := @seenBound_mono σ P s seen (P.canon ext :: seen)
            (fun x hx => List.mem_cons_of_mem _ hx) c
          omega

lemma dfsLoopTrace_count {P : PuzzleOps σ} {s : σ} :
    ∀ fuel seen work popped (c : String),
      (popped.map P.canon).count c + (work.map P.canon).count c ≤
        seenBound P s seen c →
      (((dfsLoopTrace P fuel seen work popped).1).map P.canon).count c ≤
        if c = P.canon s then 2 else 1 := by
  intro fuel
  induction fuel with
  | zero =>
    intro seen work popped c hb
    have hcap := @seenBound_le_cap σ P s seen c
    simp only [dfsLoopTrace]
    omega
  | succ fuel ih =>
    intro seen work popped c hb
    cases hlast : work.getLast? with
    | none =>
      simp only [dfsLoopTrace, hlast]
      have hcap := @seenBound_le_cap σ P s seen c
      omega
    | some item =>
      have hsplit : (work.map P.canon).count c =
          ((work.dropLast).map P.canon).count c +
            (([item]).map P.canon).count c := by
        conv_lhs => rw [getLast_opt_decomp hlast]
        rw [List.map_append, List.count_append]
      simp only [dfsLoopTrace, hlast]
      cases hscan : dfsInner P (P.extensions item) seen work.dropLast with
      | inl z =>
        show ((popped ++ [item]).map P.canon).count c ≤
          if c = P.canon s then 2 else 1
        have hcap := @seenBound_le_cap σ P s seen c
        rw [List.map_append, List.count_append]
        omega
      | inr res =>
        obtain ⟨seen2, work2⟩ := res
        show (((dfsLoopTrace P fuel seen2 work2 (popped ++ [item])).1).map
          P.canon).count c ≤ if c = P.canon s then 2 else 1
        refine ih seen2 work2 (popped ++ [item]) c ?_
        have hcnt := @dfsInner_count σ P s (P.extensions item)
          seen work.dropLast seen2 work2
          ((popped.map P.canon).count c + (([item]).map P.canon).count c)
          c hscan (by omega)
        rw [List.map_append, List.count_append]
        omega

lemma bfsLoopTrace_count {P : PuzzleOps σ} {s : σ} :
    ∀ fuel seen work popped (c : String),
      (popped.map P.canon).count c + (work.map P.canon).count c ≤
        seenBound P s seen c →
      (((bfsLoopTrace P fuel seen work popped).1).map P.canon).count c ≤
        if c = P.canon s then 2 else 1 := by
  intro fuel
  induction fuel with
  | zero =>
    intro seen work popped c hb
    have hcap := @seenBound_le_cap σ P s seen c
    simp only [bfsLoopTrace]
    omega
  | succ fuel ih =>
    intro seen work popped c hb
    cases work with
    | nil =>
      simp only [bfsLoopTrace]
      have hcap := @seenBound_le_cap σ P s seen c
      omega
    | cons item rest =>
      have hsplit : (((item :: rest)).map P.canon).count c =
          (([item]).map P.canon).count c + ((rest).map P.canon).count c := by
        rw [show (item :: rest) = [item] ++ rest from rfl,
          List.map_append, List.count_append]
      simp only [bfsLoopTrace]
      cases hscan : bfsInner P (P.extensions item) seen rest with
      | inl z =>
        show ((popped ++ [item]).map P.canon).count c ≤
          if c = P.canon s then 2 else 1
        have hcap := @seenBound_le_cap σ P s seen c
        rw [List.map_append, List.count_append]
        omega
      | inr res =>
        obtain ⟨seen2, work2⟩ := res
        show (((bfsLoopTrace P fuel seen2 work2 (popped ++ [item])).1).map
          P.canon).count c ≤ if c = P.canon s then 2 else 1
        refine ih seen2 work2 (popped ++ [item]) c ?_
        have hcnt := @bfsInner_count σ P s (P.extensions item)
          seen rest seen2 work2
          ((popped.map P.canon).count c + (([item]).map P.canon).count c)
          c hscan (by omega)
        rw [List.map_append, List.count_append]
        omega

/-- C6 counterexample: on the two-state cycle `0 → 1 → 0` both entry
points pop and expand the initial state twice (its canonical string is
never recorded when the initial node is created, so the cycle re-enqueues
it): the popped-and-expanded trace is `[0, 1, 0]`, in which the canonical
string of `0` occurs twice.  The third and fourth conjuncts confirm the
instrumented loops compute exactly what the embedded loops compute. -/
theorem C6_counterexample :
    (dfsLoopTrace cyclePuzzle 4 [] [0] []).1 = [0, 1, 0] ∧
    (bfsLoopTrace cyclePuzzle 4 [] [0] []).1 = [0, 1, 0] ∧
    (dfsLoopTrace cyclePuzzle 4 [] [0] []).2 = dfsLoop cyclePuzzle 4 [] [0] ∧
    (bfsLoopTrace cyclePuzzle 4 [] [0] []).2 = bfsLoop cyclePuzzle 4 [] [0] ∧
    (((dfsLoopTrace cyclePuzzle 4 [] [0] []).1).map cyclePuzzle.canon).count
      (cyclePuzzle.canon 0) = 2 :=
  ⟨rfl, rfl, rfl, rfl, rfl⟩

/-- C6 (amended): within one run of either entry point, every canonical
string other than the initial state's is popped from the work collection
and expanded at most once; the initial state's canonical string is
expanded at most twice (its initial node is pushed without being recorded
in the visited set, so a cycle back to the initial state can re-enqueue
it once).  The first two conjuncts state that the instrumented loops whose
traces are bounded compute exactly `depth_first_solve` and
`breadth_first_solve`. -/
theorem C6_no_revisits (P : PuzzleOps σ) (s : σ) (fuel : Nat) (c : String) :
    (dfsLoopTrace P fuel [] [s] []).2 = depth_first_solve P fuel s ∧
    (bfsLoopTrace P fuel [] [s] []).2 = breadth_first_solve P fuel s ∧
    (((dfsLoopTrace P fuel [] [s] []).1).map P.canon).count c ≤
      (if c = P.canon s then 2 else 1) ∧
    (((bfsLoopTrace P fuel [] [s] []).1).map P.canon).count c ≤
      (if c = P.canon s then 2 else 1) := by
  have hinit : (([] : List σ).map P.canon).count c +
      (([s] : List σ).map P.canon).count c ≤ seenBound P s [] c := by
    simp only [List.map_nil, List.count_nil, List.map_cons, List.map_nil,
      Nat.zero_add]
    rw [List.count_singleton']
    unfold seenBound
    rw [if_neg (List.not_mem_nil c)]
    by_cases hc : c = P.canon s
    · rw [if_pos hc]
      simp [hc]
    · rw [if_neg hc]
      simp [Ne.symm hc]
  exact ⟨dfsLoopTrace_snd fuel [] [s] [], bfsLoopTrace_snd fuel [] [s] [],
    dfsLoopTrace_count fuel [] [s] [] c hinit,
    bfsLoopTrace_count fuel [] [s] [] c hinit⟩

end PuzzleSolver
